import Mathlib

/-!
Verification of the PATH-NY/NJ GTFS-realtime alert pipeline (`src/lib.rs`).

The development shallowly embeds the core pipeline of `parse_path_alerts`:

* the text normalizer (`APOLOGIZE_REGEX.replace_all(..., "").trim()`),
* the timestamp resolver (`NaiveDateTime::parse_from_str` with the fixed
  format string "%m/%d/%Y %I:%M %p", `and_utc().timestamp() as u64`, with
  the captured current time as fallback),
* the route resolver (`find_route_ids` plus the informed-entity assembly),
* the feed assembly (entity ids `path_alert_<index>`, the header constants).

Strings are modelled as `List Char`.  The HTML parsing layer (the `scraper`
crate) is total and is modelled abstractly: a document is represented by the
list of station blocks that `document.select(&STATION_SELECTOR)` yields, each
carrying the (optional) text of its first date node, second date node, and
first alert-text node, exactly the data the Rust code reads from each block.
-/

/-! ## Rust `str::trim`

Rust's `str::trim` strips characters with the Unicode `White_Space` property
from both ends.  `isRustWS` lists that set explicitly. -/

def isRustWS (c : Char) : Bool :=
  c = ' ' || c = '\t' || c = '\n' || c = '\x0b' || c = '\x0c' || c = '\r' ||
  c = '\x85' || c = '\xa0' || c = ' ' ||
  c = ' ' || c = ' ' || c = ' ' || c = ' ' || c = ' ' ||
  c = ' ' || c = ' ' || c = ' ' || c = ' ' || c = ' ' ||
  c = ' ' || c = ' ' || c = ' ' || c = ' ' || c = ' ' ||
  c = '　'

/-- Model of Rust `str::trim_start`. -/
def trimLeft (s : List Char) : List Char := s.dropWhile isRustWS

/-- Model of Rust `str::trim_end`. -/
def trimRight (s : List Char) : List Char := (s.reverse.dropWhile isRustWS).reverse

/-- Model of Rust `str::trim` (both ends). -/
def rustTrim (s : List Char) : List Char := trimRight (trimLeft s)

/-! ## The apology regular expression

`APOLOGIZE_REGEX` in `src/lib.rs` is

  We (apologize|regret) (for )?(the|this|any)?( )?(inconvenience)( )?(this )?(may )?(have|has)?( )?(caused)?(.*\.?)

The Rust `regex` crate uses leftmost-first (Perl-like) semantics and `.`
does not match a newline.  For this particular pattern the match relation
simplifies soundly:

* a match begins at a position exactly when the mandatory part
  `We (apologize|regret) (for )?(the|this|any)?( )?inconvenience`
  succeeds there with greedy (first-alternative, option-taken) choices --
  the alternatives of each group start with pairwise distinct character
  prefixes, and whenever a greedy optional choice is possible the
  skip-choice cannot reach the mandatory literal `inconvenience`, so
  backtracking never changes the outcome;
* every group after `inconvenience` is optional and is followed by the
  greedy `(.*\.?)`, so a successful match always extends exactly to the
  next newline (or to the end of the input).

`litP`, `altP`, `optLit`, `optAlt` parse a literal, an ordered alternation
of literals, and their optional variants; each returns the remaining input. -/

def litP : List Char → List Char → Option (List Char)
  | [], s => some s
  | _ :: _, [] => none
  | p :: ps, c :: cs => if c = p then litP ps cs else none

def altP : List (List Char) → List Char → Option (List Char)
  | [], _ => none
  | p :: ps, s =>
    match litP p s with
    | some r => some r
    | none => altP ps s

def optLit (p : List Char) (s : List Char) : List Char :=
  match litP p s with
  | some r => r
  | none => s

def optAlt (ps : List (List Char)) (s : List Char) : List Char :=
  match altP ps s with
  | some r => r
  | none => s

def kWe : List Char := ['W', 'e', ' ']
def kApologize : List Char := ['a', 'p', 'o', 'l', 'o', 'g', 'i', 'z', 'e']
def kRegret : List Char := ['r', 'e', 'g', 'r', 'e', 't']
def kSp : List Char := [' ']
def kFor : List Char := ['f', 'o', 'r', ' ']
def kThe : List Char := ['t', 'h', 'e']
def kThis : List Char := ['t', 'h', 'i', 's']
def kAny : List Char := ['a', 'n', 'y']
def kInconvenience : List Char :=
  ['i', 'n', 'c', 'o', 'n', 'v', 'e', 'n', 'i', 'e', 'n', 'c', 'e']

/-- Mandatory part of the regex after the leading `We `:
`(apologize|regret) (for )?(the|this|any)?( )?inconvenience`.
Returns the remaining input after `inconvenience` on success. -/
def apologyTail (s : List Char) : Option (List Char) :=
  (altP [kApologize, kRegret] s).bind fun s1 =>
    (litP kSp s1).bind fun s2 =>
      litP kInconvenience (optLit kSp (optAlt [kThe, kThis, kAny] (optLit kFor s2)))

/-- Mandatory part of the regex from the start of a candidate match.
A match of `APOLOGIZE_REGEX` begins at a position iff `mandatoryP` succeeds
on the suffix starting there. -/
def mandatoryP (s : List Char) : Option (List Char) :=
  (litP kWe s).bind apologyTail

/-- Remaining input after a whole regex match beginning at the start of `s`
(the optional tail groups and the greedy `(.*\.?)` extend the match to the
next newline or the end of input). -/
def matchRest (s : List Char) : Option (List Char) :=
  (mandatoryP s).map (fun r => r.dropWhile (fun c => c != '\n'))

theorem litP_eq_append {p s r : List Char} (h : litP p s = some r) : s = p ++ r := by
  induction p generalizing s with
  | nil => simpa [litP] using h
  | cons a ps ih =>
    cases s with
    | nil => simp [litP] at h
    | cons c cs =>
      by_cases hc : c = a
      · subst hc
        simp only [litP, if_pos rfl] at h
        simpa using ih h
      · simp [litP, hc] at h

theorem altP_eq_append {ps : List (List Char)} {s r : List Char}
    (h : altP ps s = some r) : ∃ p, p ∈ ps ∧ s = p ++ r := by
  induction ps with
  | nil => simp [altP] at h
  | cons q qs ih =>
    cases hq : litP q s with
    | some r' =>
      simp only [altP, hq, Option.some.injEq] at h
      subst h
      exact ⟨q, by simp, litP_eq_append hq⟩
    | none =>
      simp only [altP, hq] at h
      obtain ⟨p, hp, hs⟩ := ih h
      exact ⟨p, by simp [hp], hs⟩

theorem optLit_eq_append (p s : List Char) : ∃ q, s = q ++ optLit p s := by
  unfold optLit
  cases h : litP p s with
  | some r => exact ⟨p, litP_eq_append h⟩
  | none => exact ⟨[], rfl⟩

theorem optAlt_eq_append (ps : List (List Char)) (s : List Char) :
    ∃ q, s = q ++ optAlt ps s := by
  unfold optAlt
  cases h : altP ps s with
  | some r =>
    obtain ⟨p, _, hs⟩ := altP_eq_append h
    exact ⟨p, hs⟩
  | none => exact ⟨[], rfl⟩

theorem apologyTail_eq_append {s r : List Char} (h : apologyTail s = some r) :
    ∃ q, s = q ++ r := by
  unfold apologyTail at h
  cases h1 : altP [kApologize, kRegret] s with
  | none => simp [h1] at h
  | some s1 =>
    rw [h1, Option.some_bind] at h
    cases h2 : litP kSp s1 with
    | none => simp [h2] at h
    | some s2 =>
      rw [h2, Option.some_bind] at h
      obtain ⟨p, _, hp⟩ := altP_eq_append h1
      have hs1 : s1 = kSp ++ s2 := litP_eq_append h2
      obtain ⟨q3, hq3⟩ := optLit_eq_append kFor s2
      obtain ⟨q4, hq4⟩ := optAlt_eq_append [kThe, kThis, kAny] (optLit kFor s2)
      obtain ⟨q5, hq5⟩ := optLit_eq_append kSp (optAlt [kThe, kThis, kAny] (optLit kFor s2))
      have hinc := litP_eq_append h
      refine ⟨p ++ kSp ++ q3 ++ q4 ++ q5 ++ kInconvenience, ?_⟩
      rw [hp, hs1, hq3, hq4, hq5, hinc]
      simp [List.append_assoc]

/-- Successful `mandatoryP` consumes a nonempty prefix beginning with `W`. -/
theorem mandatoryP_decomp {s r : List Char} (h : mandatoryP s = some r) :
    ∃ ds, s = 'W' :: ds ++ r := by
  unfold mandatoryP at h
  cases h1 : litP kWe s with
  | none => simp [h1] at h
  | some s1 =>
    rw [h1, Option.some_bind] at h
    obtain ⟨q, hq⟩ := apologyTail_eq_append h
    have := litP_eq_append h1
    exact ⟨['e', ' '] ++ q, by simp [kWe, this, hq]⟩

theorem mandatoryP_length_lt {s r : List Char} (h : mandatoryP s = some r) :
    r.length < s.length := by
  obtain ⟨ds, hds⟩ := mandatoryP_decomp h
  subst hds
  simp
  omega

theorem matchRest_length_lt {s r : List Char} (h : matchRest s = some r) :
    r.length < s.length := by
  unfold matchRest at h
  cases hm : mandatoryP s with
  | none => simp [hm] at h
  | some r' =>
    simp only [hm, Option.map_some', Option.some.injEq] at h
    subst h
    have h1 := mandatoryP_length_lt hm
    have h2 : (List.dropWhile (fun c => c != '\n') r').length ≤ r'.length :=
      (List.dropWhile_suffix _).length_le
    omega

/-- Structural recursion core of `replace_all`, fuelled by an upper bound on
the input length.  Each step either deletes the match beginning at the
current position and resumes after its end, or keeps the character and moves
one position right.  The fuel only serves termination: `matchRest` consumes
at least one character, so fuel `s.length` never runs out
(`replaceAllAux_congr` below shows the value does not depend on the fuel). -/
def replaceAllAux : Nat → List Char → List Char
  | _, [] => []
  | 0, c :: cs => c :: cs
  | fuel + 1, c :: cs =>
    match matchRest (c :: cs) with
    | some rest => replaceAllAux fuel rest
    | none => c :: replaceAllAux fuel cs

/-- Model of `APOLOGIZE_REGEX.replace_all(text, "")`: repeatedly delete the
leftmost match and resume scanning right after its end. -/
def replaceAllApology (s : List Char) : List Char := replaceAllAux s.length s

theorem replaceAllAux_congr :
    ∀ (f g : Nat) (s : List Char), s.length ≤ f → s.length ≤ g →
      replaceAllAux f s = replaceAllAux g s := by
  intro f
  induction f using Nat.strong_induction_on with
  | _ f ih =>
    intro g s hf hg
    cases s with
    | nil => cases f <;> cases g <;> rfl
    | cons c cs =>
      have hf1 : 1 ≤ f := le_trans (by simp) hf
      have hg1 : 1 ≤ g := le_trans (by simp) hg
      obtain ⟨f', rfl⟩ : ∃ f', f = f' + 1 := ⟨f - 1, by omega⟩
      obtain ⟨g', rfl⟩ : ∃ g', g = g' + 1 := ⟨g - 1, by omega⟩
      show replaceAllAux (f' + 1) (c :: cs) = replaceAllAux (g' + 1) (c :: cs)
      cases hm : matchRest (c :: cs) with
      | some rest =>
        simp only [replaceAllAux, hm]
        have hlt := matchRest_length_lt hm
        have hsl : (c :: cs).length = cs.length + 1 := rfl
        exact ih f' (by omega) g' rest (by omega) (by omega)
      | none =>
        simp only [replaceAllAux, hm]
        have hsl : (c :: cs).length = cs.length + 1 := rfl
        rw [ih f' (by omega) g' cs (by omega) (by omega)]

theorem replaceAllApology_nil : replaceAllApology [] = [] := rfl

/-- One-step unfolding of `replace_all`. -/
theorem replaceAllApology_cons (c : Char) (cs : List Char) :
    replaceAllApology (c :: cs) =
      match matchRest (c :: cs) with
      | some rest => replaceAllApology rest
      | none => c :: replaceAllApology cs := by
  show replaceAllAux (cs.length + 1) (c :: cs) = _
  cases hm : matchRest (c :: cs) with
  | some rest =>
    simp only [replaceAllAux, hm]
    have hlt := matchRest_length_lt hm
    have hsl : (c :: cs).length = cs.length + 1 := rfl
    exact replaceAllAux_congr cs.length rest.length rest (by omega) le_rfl
  | none =>
    simp only [replaceAllAux, hm]
    rfl

/-- Model of the Text Normalizer (lines 92-95 of `src/lib.rs`):
`APOLOGIZE_REGEX.replace_all(&alert_text, "").trim().to_string()`. -/
def normalizeText (s : List Char) : List Char := rustTrim (replaceAllApology s)

/-- Deletion of only the first (leftmost) match, as claimed by the spec
sentence "removes the first such match".  Used to compare the spec's words
against the source's `replace_all`. -/
def removeFirstMatch (s : List Char) : List Char :=
  match s with
  | [] => []
  | c :: cs =>
    match matchRest (c :: cs) with
    | some rest => rest
    | none => c :: removeFirstMatch cs

/-- Normalizer as described by the spec's words for claim C1: remove the
first match only, then trim. -/
def normalizeTextFirstOnly (s : List Char) : List Char := rustTrim (removeFirstMatch s)

/-- Decides whether a match of the apology regex begins at any position of
`s` (positions are suffixes). -/
def suffixHasMatch (s : List Char) : Bool :=
  match s with
  | [] => false
  | c :: cs => (matchRest (c :: cs)).isSome || suffixHasMatch cs

theorem dropWhile_newline_shape (r : List Char) :
    r.dropWhile (fun c => c != '\n') = [] ∨
    ∃ x, r.dropWhile (fun c => c != '\n') = '\n' :: x := by
  induction r with
  | nil => left; rfl
  | cons c cs ih =>
    by_cases hc : c = '\n'
    · subst hc
      right
      exact ⟨cs, by simp [List.dropWhile]⟩
    · have hb : (c != '\n') = true := by simp [bne_iff_ne, hc]
      simpa only [List.dropWhile, hb] using ih

/-- Relation between a string and the result of deleting zero or more regex
matches from it: every deleted segment starts with `W` and ends right before
a newline or at the end of the input. -/
inductive DelRel : List Char → List Char → Prop where
  | nil : DelRel [] []
  | keep (c : Char) {s t : List Char} : DelRel s t → DelRel (c :: s) (c :: t)
  | del {ds rest t : List Char} (hrest : rest = [] ∨ ∃ x, rest = '\n' :: x)
      (h : DelRel rest t) : DelRel ('W' :: ds ++ rest) t

theorem delRel_nil_inv {s t : List Char} (h : DelRel s t) (hs : s = []) : t = [] := by
  cases h with
  | nil => rfl
  | keep c h => simp at hs
  | del hrest h => simp at hs

theorem delRel_newline_inv {s t x : List Char} (h : DelRel s t) (hs : s = '\n' :: x) :
    ∃ t', t = '\n' :: t' ∧ DelRel x t' := by
  cases h with
  | nil => simp at hs
  | keep c h =>
    injection hs with hc hx
    subst hc
    subst hx
    exact ⟨_, rfl, h⟩
  | del hrest h =>
    exfalso
    simp only [List.cons_append] at hs
    injection hs with hW _
    exact absurd hW (by decide)

/-- Literal parsing is unaffected by deleting later matches, provided the
literal contains neither `W` (where a deleted segment starts) nor a newline
(which is what follows a deleted segment). -/
theorem litP_delRel {p : List Char} (hW : 'W' ∉ p) (hN : '\n' ∉ p)
    {s t : List Char} (h : DelRel s t) :
    (litP p s = none ∧ litP p t = none) ∨
    (∃ r r', litP p s = some r ∧ litP p t = some r' ∧ DelRel r r') := by
  induction p generalizing s t with
  | nil => exact Or.inr ⟨s, t, rfl, rfl, h⟩
  | cons a ps ih =>
    have haW : ('W' : Char) ≠ a := fun he => hW (he ▸ List.mem_cons_self a ps)
    have haN : ('\n' : Char) ≠ a := fun he => hN (he ▸ List.mem_cons_self a ps)
    have hW' : 'W' ∉ ps := fun hm => hW (List.mem_cons_of_mem a hm)
    have hN' : '\n' ∉ ps := fun hm => hN (List.mem_cons_of_mem a hm)
    cases h with
    | nil => exact Or.inl ⟨rfl, rfl⟩
    | keep c h1 =>
      by_cases hc : c = a
      · subst hc
        rcases ih hW' hN' h1 with ⟨hn1, hn2⟩ | ⟨r, r', h1', h2', hrr⟩
        · exact Or.inl ⟨by simp [litP, hn1], by simp [litP, hn2]⟩
        · exact Or.inr ⟨r, r', by simp [litP, h1'], by simp [litP, h2'], hrr⟩
      · exact Or.inl ⟨by simp [litP, hc], by simp [litP, hc]⟩
    | del hrest h1 =>
      refine Or.inl ⟨?_, ?_⟩
      · simp only [List.cons_append, litP]
        exact if_neg haW
      · rcases hrest with hre | ⟨x, hre⟩
        · have h2 : _ = ([] : List Char) := delRel_nil_inv h1 hre
          rw [h2]
          rfl
        · subst hre
          obtain ⟨t', ht, _⟩ := delRel_newline_inv h1 rfl
          rw [ht]
          simp only [litP]
          exact if_neg haN

theorem altP_delRel {ps : List (List Char)} (hW : ∀ p ∈ ps, 'W' ∉ p)
    (hN : ∀ p ∈ ps, '\n' ∉ p) {s t : List Char} (h : DelRel s t) :
    (altP ps s = none ∧ altP ps t = none) ∨
    (∃ r r', altP ps s = some r ∧ altP ps t = some r' ∧ DelRel r r') := by
  induction ps with
  | nil => exact Or.inl ⟨rfl, rfl⟩
  | cons q qs ih =>
    rcases litP_delRel (hW q (by simp)) (hN q (by simp)) h with ⟨h1, h2⟩ | ⟨r, r', h1, h2, hrr⟩
    · have hW' : ∀ p ∈ qs, 'W' ∉ p := fun p hp => hW p (by simp [hp])
      have hN' : ∀ p ∈ qs, '\n' ∉ p := fun p hp => hN p (by simp [hp])
      rcases ih hW' hN' with ⟨g1, g2⟩ | ⟨r, r', g1, g2, hrr⟩
      · exact Or.inl ⟨by simp [altP, h1, g1], by simp [altP, h2, g2]⟩
      · exact Or.inr ⟨r, r', by simp [altP, h1, g1], by simp [altP, h2, g2], hrr⟩
    · exact Or.inr ⟨r, r', by simp [altP, h1], by simp [altP, h2], hrr⟩

theorem optLit_delRel {p : List Char} (hW : 'W' ∉ p) (hN : '\n' ∉ p)
    {s t : List Char} (h : DelRel s t) : DelRel (optLit p s) (optLit p t) := by
  rcases litP_delRel hW hN h with ⟨h1, h2⟩ | ⟨r, r', h1, h2, hrr⟩
  · simpa [optLit, h1, h2] using h
  · simpa [optLit, h1, h2] using hrr

theorem optAlt_delRel {ps : List (List Char)} (hW : ∀ p ∈ ps, 'W' ∉ p)
    (hN : ∀ p ∈ ps, '\n' ∉ p) {s t : List Char} (h : DelRel s t) :
    DelRel (optAlt ps s) (optAlt ps t) := by
  rcases altP_delRel hW hN h with ⟨h1, h2⟩ | ⟨r, r', h1, h2, hrr⟩
  · simpa [optAlt, h1, h2] using h
  · simpa [optAlt, h1, h2] using hrr

theorem apologyTail_delRel {s t : List Char} (h : DelRel s t)
    (hn : apologyTail s = none) : apologyTail t = none := by
  unfold apologyTail at hn ⊢
  rcases @altP_delRel [kApologize, kRegret] (by decide) (by decide) _ _ h with
    ⟨h1, h2⟩ | ⟨s1, t1, h1, h2, hrr⟩
  · simp [h2]
  · rw [h1, Option.some_bind] at hn
    rw [h2, Option.some_bind]
    rcases litP_delRel (p := kSp) (by decide) (by decide) hrr with
      ⟨g1, g2⟩ | ⟨s2, t2, g1, g2, grr⟩
    · simp [g2]
    · rw [g1, Option.some_bind] at hn
      rw [g2, Option.some_bind]
      have hmid : DelRel (optLit kSp (optAlt [kThe, kThis, kAny] (optLit kFor s2)))
          (optLit kSp (optAlt [kThe, kThis, kAny] (optLit kFor t2))) :=
        optLit_delRel (by decide) (by decide)
          (optAlt_delRel (by decide) (by decide)
            (optLit_delRel (by decide) (by decide) grr))
      rcases litP_delRel (p := kInconvenience) (by decide) (by decide) hmid with
        ⟨f1, f2⟩ | ⟨r, r', f1, f2, _⟩
      · exact f2
      · rw [f1] at hn
        exact absurd hn (by simp)

/-- Core transfer lemma: if no match begins at `c :: cs`, none begins at
`c :: cs'` where `cs'` is `cs` with later matches deleted. -/
theorem mandatoryP_delRel_cons {c : Char} {cs t : List Char} (h : DelRel cs t)
    (hn : mandatoryP (c :: cs) = none) : mandatoryP (c :: t) = none := by
  by_cases hc : c = 'W'
  · subst hc
    have hkWe : ∀ x : List Char, litP kWe ('W' :: x) = litP ['e', ' '] x := by
      intro x
      simp [kWe, litP]
    unfold mandatoryP at hn ⊢
    rw [hkWe] at hn ⊢
    rcases litP_delRel (p := ['e', ' ']) (by decide) (by decide) h with
      ⟨h1, h2⟩ | ⟨r, r', h1, h2, hrr⟩
    · simp [h2]
    · rw [h1, Option.some_bind] at hn
      rw [h2, Option.some_bind]
      exact apologyTail_delRel hrr hn
  · unfold mandatoryP
    have : litP kWe (c :: t) = none := by
      simp only [kWe, litP]
      exact if_neg hc
    simp [this]

theorem matchRest_none_iff {s : List Char} : matchRest s = none ↔ mandatoryP s = none := by
  unfold matchRest
  cases h : mandatoryP s <;> simp [h]

theorem delRel_replaceAll_aux :
    ∀ (n : Nat) (s : List Char), s.length ≤ n → DelRel s (replaceAllApology s) := by
  intro n
  induction n with
  | zero =>
    intro s hs
    have : s = [] := List.length_eq_zero.mp (Nat.le_zero.mp hs)
    subst this
    rw [replaceAllApology_nil]
    exact DelRel.nil
  | succ n ih =>
    intro s hs
    cases s with
    | nil =>
      rw [replaceAllApology_nil]
      exact DelRel.nil
    | cons c cs =>
      rw [replaceAllApology_cons]
      cases hm : matchRest (c :: cs) with
      | some rest =>
        simp only [hm]
        have hmand : ∃ r, mandatoryP (c :: cs) = some r ∧
            rest = r.dropWhile (fun c => c != '\n') := by
          unfold matchRest at hm
          cases hr : mandatoryP (c :: cs) with
          | none => rw [hr] at hm; exact absurd hm (by simp)
          | some r =>
            rw [hr, Option.map_some'] at hm
            exact ⟨r, rfl, (Option.some.injEq _ _ ▸ hm).symm⟩
        obtain ⟨r, hr, hrest⟩ := hmand
        obtain ⟨ds, hds⟩ := mandatoryP_decomp hr
        have hsplit : (c :: cs) = 'W' :: (ds ++ r.takeWhile (fun c => c != '\n')) ++ rest := by
          rw [hds, hrest]
          conv_lhs => rw [← List.takeWhile_append_dropWhile (p := fun c => c != '\n') (l := r)]
          simp [List.append_assoc]
        have hlt := matchRest_length_lt hm
        have hih : DelRel rest (replaceAllApology rest) := by
          apply ih
          have : (c :: cs).length ≤ n + 1 := hs
          omega
        rw [hsplit]
        exact DelRel.del (hrest ▸ dropWhile_newline_shape r) hih
      | none =>
        simp only [hm]
        exact DelRel.keep c (ih cs (by simp at hs; omega))

/-- The output of `replace_all` relates to its input by match deletion. -/
theorem delRel_replaceAll (s : List Char) : DelRel s (replaceAllApology s) :=
  delRel_replaceAll_aux s.length s le_rfl

/-- Strings without any match are fixed points of `replace_all`. -/
theorem replaceAll_of_noMatch {s : List Char} (h : suffixHasMatch s = false) :
    replaceAllApology s = s := by
  induction s with
  | nil => rw [replaceAllApology_nil]
  | cons c cs ih =>
    unfold suffixHasMatch at h
    rw [Bool.or_eq_false_iff] at h
    obtain ⟨h1, h2⟩ := h
    rw [replaceAllApology_cons]
    cases hm : matchRest (c :: cs) with
    | some rest => rw [hm] at h1; exact absurd h1 (by simp)
    | none => simp only [hm]; rw [ih h2]

/-- Key invariant: the output of `replace_all` contains no match anywhere. -/
theorem noMatch_replaceAll_aux :
    ∀ (n : Nat) (s : List Char), s.length ≤ n →
      suffixHasMatch (replaceAllApology s) = false := by
  intro n
  induction n with
  | zero =>
    intro s hs
    have : s = [] := List.length_eq_zero.mp (Nat.le_zero.mp hs)
    subst this
    rw [replaceAllApology_nil]
    rfl
  | succ n ih =>
    intro s hs
    cases s with
    | nil => rw [replaceAllApology_nil]; rfl
    | cons c cs =>
      rw [replaceAllApology_cons]
      cases hm : matchRest (c :: cs) with
      | some rest =>
        simp only [hm]
        have hlt := matchRest_length_lt hm
        apply ih
        have : (c :: cs).length ≤ n + 1 := hs
        omega
      | none =>
        simp only [hm]
        unfold suffixHasMatch
        rw [Bool.or_eq_false_iff]
        constructor
        · have hnone : matchRest (c :: replaceAllApology cs) = none :=
            matchRest_none_iff.mpr
              (mandatoryP_delRel_cons (delRel_replaceAll cs) (matchRest_none_iff.mp hm))
          rw [hnone]
          rfl
        · exact ih cs (by simp at hs; omega)

theorem noMatch_replaceAll (s : List Char) :
    suffixHasMatch (replaceAllApology s) = false :=
  noMatch_replaceAll_aux s.length s le_rfl

/-- Deleting matches only deletes characters: the result is a sublist. -/
theorem delRel_sublist {s t : List Char} (h : DelRel s t) : t.Sublist s := by
  induction h with
  | nil => exact List.Sublist.refl []
  | keep c _ ih => exact ih.cons₂ c
  | del hrest _ ih =>
    exact (ih.trans (List.sublist_append_right _ _)).trans (List.sublist_cons_self _ _)

theorem litP_self_append (p v : List Char) : litP p (p ++ v) = some v := by
  induction p with
  | nil => rfl
  | cons a ps ih => simp [litP, ih]

theorem litP_append_some {p u r : List Char} (h : litP p u = some r) (w : List Char) :
    litP p (u ++ w) = some (r ++ w) := by
  have := litP_eq_append h
  subst this
  rw [List.append_assoc]
  exact litP_self_append p (r ++ w)

theorem litP_some_length {p u r : List Char} (h : litP p u = some r) :
    p.length ≤ u.length := by
  have := litP_eq_append h
  subst this
  simp

/-- Failure of a literal parse is either permanent under extension of the
input, or the input is a strict prefix of the literal. -/
theorem litP_none_extend {p u : List Char} (h : litP p u = none) (w : List Char) :
    litP p (u ++ w) = none ∨ (u.length < p.length ∧ u <+: p) := by
  induction p generalizing u with
  | nil => simp [litP] at h
  | cons a ps ih =>
    cases u with
    | nil => exact Or.inr ⟨by simp, List.nil_prefix⟩
    | cons c cs =>
      by_cases hc : c = a
      · subst hc
        simp only [litP, if_pos rfl] at h
        rcases ih h with h' | ⟨hl, hp⟩
        · left
          simpa [litP] using h'
        · right
          exact ⟨by simpa using hl, by simpa [List.prefix_cons_inj] using hp⟩
      · left
        simp [litP, hc]

theorem optLit_length_le (p s : List Char) : (optLit p s).length ≤ s.length := by
  obtain ⟨q, hq⟩ := optLit_eq_append p s
  conv_rhs => rw [hq]
  simp

theorem optAlt_length_le (ps : List (List Char)) (s : List Char) :
    (optAlt ps s).length ≤ s.length := by
  obtain ⟨q, hq⟩ := optAlt_eq_append ps s
  conv_rhs => rw [hq]
  simp

theorem prefix_cons_head {u : List Char} {a b : Char} {xs ys : List Char}
    (h : u <+: (a :: xs)) (hu : u = b :: ys) (hne : b ≠ a) : False := by
  obtain ⟨t, ht⟩ := h
  rw [hu] at ht
  simp only [List.cons_append] at ht
  injection ht with h1 _
  exact hne h1

theorem midChain3_append {u4 r : List Char}
    (h : litP kInconvenience (optLit kSp u4) = some r) (w : List Char) :
    litP kInconvenience (optLit kSp (u4 ++ w)) = some (r ++ w) := by
  cases hsp : litP kSp u4 with
  | some u5 =>
    have e1 : optLit kSp u4 = u5 := by simp [optLit, hsp]
    have e1' : optLit kSp (u4 ++ w) = u5 ++ w := by simp [optLit, litP_append_some hsp w]
    rw [e1] at h
    rw [e1']
    exact litP_append_some h w
  | none =>
    have e1 : optLit kSp u4 = u4 := by simp [optLit, hsp]
    rw [e1] at h
    rcases litP_none_extend hsp w with hh | ⟨hl, _⟩
    · have e1' : optLit kSp (u4 ++ w) = u4 ++ w := by simp [optLit, hh]
      rw [e1']
      exact litP_append_some h w
    · exfalso
      have h13 := litP_some_length h
      have e2 : kInconvenience.length = 13 := rfl
      have e3 : kSp.length = 1 := rfl
      omega

theorem midChain2_append {u3 r : List Char}
    (h : litP kInconvenience (optLit kSp (optAlt [kThe, kThis, kAny] u3)) = some r)
    (w : List Char) :
    litP kInconvenience (optLit kSp (optAlt [kThe, kThis, kAny] (u3 ++ w))) =
      some (r ++ w) := by
  cases hthe : litP kThe u3 with
  | some v =>
    have e : optAlt [kThe, kThis, kAny] u3 = v := by simp [optAlt, altP, hthe]
    have e' : optAlt [kThe, kThis, kAny] (u3 ++ w) = v ++ w := by
      simp [optAlt, altP, litP_append_some hthe w]
    rw [e] at h
    rw [e']
    exact midChain3_append h w
  | none =>
    rcases litP_none_extend hthe w with hthe' | ⟨hlthe, _⟩
    · cases hthis : litP kThis u3 with
      | some v =>
        have e : optAlt [kThe, kThis, kAny] u3 = v := by simp [optAlt, altP, hthe, hthis]
        have e' : optAlt [kThe, kThis, kAny] (u3 ++ w) = v ++ w := by
          simp [optAlt, altP, hthe', litP_append_some hthis w]
        rw [e] at h
        rw [e']
        exact midChain3_append h w
      | none =>
        rcases litP_none_extend hthis w with hthis' | ⟨hlthis, _⟩
        · cases hany : litP kAny u3 with
          | some v =>
            have e : optAlt [kThe, kThis, kAny] u3 = v := by
              simp [optAlt, altP, hthe, hthis, hany]
            have e' : optAlt [kThe, kThis, kAny] (u3 ++ w) = v ++ w := by
              simp [optAlt, altP, hthe', hthis', litP_append_some hany w]
            rw [e] at h
            rw [e']
            exact midChain3_append h w
          | none =>
            rcases litP_none_extend hany w with hany' | ⟨hlany, _⟩
            · have e : optAlt [kThe, kThis, kAny] u3 = u3 := by
                simp [optAlt, altP, hthe, hthis, hany]
              have e' : optAlt [kThe, kThis, kAny] (u3 ++ w) = u3 ++ w := by
                simp [optAlt, altP, hthe', hthis', hany']
              rw [e] at h
              rw [e']
              exact midChain3_append h w
            · exfalso
              have h13 := litP_some_length h
              have hle1 := optLit_length_le kSp (optAlt [kThe, kThis, kAny] u3)
              have hle2 := optAlt_length_le [kThe, kThis, kAny] u3
              have e2 : kInconvenience.length = 13 := rfl
              have e3 : kAny.length = 3 := rfl
              omega
        · exfalso
          have h13 := litP_some_length h
          have hle1 := optLit_length_le kSp (optAlt [kThe, kThis, kAny] u3)
          have hle2 := optAlt_length_le [kThe, kThis, kAny] u3
          have e2 : kInconvenience.length = 13 := rfl
          have e3 : kThis.length = 4 := rfl
          omega
    · exfalso
      have h13 := litP_some_length h
      have hle1 := optLit_length_le kSp (optAlt [kThe, kThis, kAny] u3)
      have hle2 := optAlt_length_le [kThe, kThis, kAny] u3
      have e2 : kInconvenience.length = 13 := rfl
      have e3 : kThe.length = 3 := rfl
      omega

theorem midChain1_append {u2 r : List Char}
    (h : litP kInconvenience
        (optLit kSp (optAlt [kThe, kThis, kAny] (optLit kFor u2))) = some r)
    (w : List Char) :
    litP kInconvenience
        (optLit kSp (optAlt [kThe, kThis, kAny] (optLit kFor (u2 ++ w)))) =
      some (r ++ w) := by
  cases hf : litP kFor u2 with
  | some u3 =>
    have e : optLit kFor u2 = u3 := by simp [optLit, hf]
    have e' : optLit kFor (u2 ++ w) = u3 ++ w := by simp [optLit, litP_append_some hf w]
    rw [e] at h
    rw [e']
    exact midChain2_append h w
  | none =>
    have e : optLit kFor u2 = u2 := by simp [optLit, hf]
    rw [e] at h
    rcases litP_none_extend hf w with hf' | ⟨hlf, _⟩
    · have e' : optLit kFor (u2 ++ w) = u2 ++ w := by simp [optLit, hf']
      rw [e']
      exact midChain2_append h w
    · exfalso
      have h13 := litP_some_length h
      have hle1 := optLit_length_le kSp (optAlt [kThe, kThis, kAny] u2)
      have hle2 := optAlt_length_le [kThe, kThis, kAny] u2
      have e2 : kInconvenience.length = 13 := rfl
      have e3 : kFor.length = 4 := rfl
      omega

theorem altAB_append {u u1 : List Char}
    (h : altP [kApologize, kRegret] u = some u1) (w : List Char) :
    altP [kApologize, kRegret] (u ++ w) = some (u1 ++ w) := by
  cases ha : litP kApologize u with
  | some v =>
    have hv : v = u1 := by simpa [altP, ha] using h
    subst hv
    simp [altP, litP_append_some ha w]
  | none =>
    cases hr : litP kRegret u with
    | none =>
      exfalso
      have hcon : altP [kApologize, kRegret] u = none := by simp [altP, ha, hr]
      rw [hcon] at h
      exact absurd h (by simp)
    | some v =>
    have hv : v = u1 := by simpa [altP, ha, hr] using h
    subst hv
    rcases litP_none_extend ha w with ha' | ⟨_, hpa⟩
    · simp [altP, ha', litP_append_some hr w]
    · exfalso
      have hu : u = 'r' :: ('e' :: 'g' :: 'r' :: 'e' :: 't' :: v) := by
        simpa [kRegret] using litP_eq_append hr
      have hpa' : u <+: 'a' :: ['p', 'o', 'l', 'o', 'g', 'i', 'z', 'e'] := by
        simpa [kApologize] using hpa
      exact prefix_cons_head hpa' hu (by decide)

theorem apologyTail_append {u r : List Char} (h : apologyTail u = some r) (w : List Char) :
    apologyTail (u ++ w) = some (r ++ w) := by
  unfold apologyTail at h ⊢
  cases h1 : altP [kApologize, kRegret] u with
  | none => rw [h1] at h; simp at h
  | some u1 =>
    rw [h1, Option.some_bind] at h
    rw [altAB_append h1 w, Option.some_bind]
    cases h2 : litP kSp u1 with
    | none => rw [h2] at h; simp at h
    | some u2 =>
      rw [h2, Option.some_bind] at h
      rw [litP_append_some h2 w, Option.some_bind]
      exact midChain1_append h w

/-- Extension monotonicity: a match at the start of `u` is still a match at
the start of `u ++ w`. -/
theorem mandatoryP_append {u r : List Char} (h : mandatoryP u = some r) (w : List Char) :
    mandatoryP (u ++ w) = some (r ++ w) := by
  unfold mandatoryP at h ⊢
  cases h1 : litP kWe u with
  | none => rw [h1] at h; simp at h
  | some u1 =>
    rw [h1, Option.some_bind] at h
    rw [litP_append_some h1 w, Option.some_bind]
    exact apologyTail_append h w

/-- Matchlessness is inherited by prefixes (a match in a prefix would extend
to a match in the whole string by `mandatoryP_append`). -/
theorem suffixHasMatch_append_false {u w : List Char}
    (h : suffixHasMatch (u ++ w) = false) : suffixHasMatch u = false := by
  induction u with
  | nil => rfl
  | cons c cs ih =>
    rw [List.cons_append] at h
    unfold suffixHasMatch at h ⊢
    rw [Bool.or_eq_false_iff] at h ⊢
    obtain ⟨h1, h2⟩ := h
    refine ⟨?_, ih h2⟩
    cases hr : mandatoryP (c :: cs) with
    | none =>
      rw [matchRest_none_iff.mpr hr]
      rfl
    | some r =>
      exfalso
      have hext : mandatoryP (c :: (cs ++ w)) = some (r ++ w) := by
        simpa [List.cons_append] using mandatoryP_append hr w
      have hms : matchRest (c :: (cs ++ w)) =
          some ((r ++ w).dropWhile (fun c => c != '\n')) := by
        unfold matchRest
        rw [hext]
        rfl
      rw [hms] at h1
      exact absurd h1 (by simp)

/-- Matchlessness is inherited by suffixes. -/
theorem suffixHasMatch_suffix_false {u w : List Char}
    (h : suffixHasMatch w = false) (hsuf : u <:+ w) : suffixHasMatch u = false := by
  obtain ⟨t, ht⟩ := hsuf
  subst ht
  induction t with
  | nil => exact h
  | cons c cs ih =>
    rw [List.cons_append] at h
    unfold suffixHasMatch at h
    rw [Bool.or_eq_false_iff] at h
    exact ih h.2

theorem trimLeft_suffix (s : List Char) : trimLeft s <:+ s :=
  List.dropWhile_suffix _

theorem trimRight_isPrefixOf (s : List Char) : trimRight s <+: s := by
  unfold trimRight
  obtain ⟨t, ht⟩ := List.dropWhile_suffix (l := s.reverse) isRustWS
  refine ⟨t.reverse, ?_⟩
  rw [← List.reverse_append, ht, List.reverse_reverse]

theorem suffixHasMatch_trim {s : List Char} (h : suffixHasMatch s = false) :
    suffixHasMatch (rustTrim s) = false := by
  unfold rustTrim
  have h1 : suffixHasMatch (trimLeft s) = false :=
    suffixHasMatch_suffix_false h (trimLeft_suffix s)
  obtain ⟨w, hw⟩ := trimRight_isPrefixOf (trimLeft s)
  exact suffixHasMatch_append_false (u := trimRight (trimLeft s)) (w := w)
    (by rw [hw]; exact h1)

theorem dropWhile_idem (p : Char → Bool) (l : List Char) :
    (l.dropWhile p).dropWhile p = l.dropWhile p := by
  induction l with
  | nil => rfl
  | cons c cs ih =>
    by_cases hc : p c
    · rw [List.dropWhile_cons, if_pos hc, ih]
    · rw [List.dropWhile_cons, if_neg hc, List.dropWhile_cons, if_neg hc]

theorem trimLeft_prefix_self {v v' : List Char} (hp : v' <+: v) (h : trimLeft v = v) :
    trimLeft v' = v' := by
  cases v' with
  | nil => rfl
  | cons c cs =>
    have hc : isRustWS c = false := by
      by_contra hcc
      rw [Bool.not_eq_false] at hcc
      obtain ⟨t, ht⟩ := hp
      rw [← ht] at h
      unfold trimLeft at h
      rw [List.cons_append, List.dropWhile_cons, if_pos hcc] at h
      have hle := (List.dropWhile_suffix (l := (cs ++ t)) isRustWS).length_le
      rw [h] at hle
      simp at hle
    unfold trimLeft
    rw [List.dropWhile_cons, if_neg (by simp [hc])]

theorem trimRight_idem (v : List Char) : trimRight (trimRight v) = trimRight v := by
  unfold trimRight
  rw [List.reverse_reverse, dropWhile_idem]

theorem trimLeft_rustTrim (u : List Char) :
    trimLeft (trimRight (trimLeft u)) = trimRight (trimLeft u) := by
  apply trimLeft_prefix_self (trimRight_isPrefixOf (trimLeft u))
  unfold trimLeft
  exact dropWhile_idem _ _

/-- The normalizer's output never contains a match and is a sublist of the
input text. -/
theorem normalizeText_noMatch (s : List Char) :
    suffixHasMatch (normalizeText s) = false :=
  suffixHasMatch_trim (noMatch_replaceAll s)

theorem rustTrim_sublist (s : List Char) : (rustTrim s).Sublist s :=
  ((trimRight_isPrefixOf (trimLeft s)).sublist).trans ((trimLeft_suffix s).sublist)

theorem normalizeText_sublist (s : List Char) : (normalizeText s).Sublist s :=
  (rustTrim_sublist _).trans (delRel_sublist (delRel_replaceAll s))

/-- Idempotence of the normalizer. -/
theorem normalizeText_idem (s : List Char) :
    normalizeText (normalizeText s) = normalizeText s := by
  unfold normalizeText
  rw [replaceAll_of_noMatch (suffixHasMatch_trim (noMatch_replaceAll s))]
  unfold rustTrim
  rw [trimLeft_rustTrim, trimRight_idem]

/-! ## Timestamp resolver

`parse_path_alerts` builds `format!("{} {}", date_str, time_str)` and parses
it with `NaiveDateTime::parse_from_str(.., "%m/%d/%Y %I:%M %p")` (chrono).
The format string compiles to the item sequence

  Numeric(Month, 2) Literal "/" Numeric(Day, 2) Literal "/"
  Numeric(Year, 4, signed) Space Numeric(Hour12, 2) Literal ":"
  Numeric(Minute, 2) Space Fixed(UpperAmPm)

chrono's parser trims leading whitespace before every numeric item, a Space
item consumes any amount of whitespace, a numeric item reads 1 up to `width`
digits (a signed year reads an optional sign, and an explicit sign lifts the
width restriction subject to an i64 overflow check), the AM/PM item compares
the first two bytes OR-ed with 32 against `am`/`pm`, and trailing input is an
error.  The parsed fields resolve to a `NaiveDateTime` iff month, day (with
leap years), year range, 12-hour clock hour and minute are valid; seconds
default to zero.  `hour = hour12 % 12 + 12 * pm`.  On success the code takes
`dt.and_utc().timestamp() as u64`; the timestamp is the proleptic-Gregorian
civil day count times 86400 plus the seconds of day, and the `as u64` cast
wraps negative values modulo `2 ^ 64`.  On any parse failure the code falls
back to the `current_timestamp` captured once before the loop. -/

def scanNumber (maxDigits : Nat) (s : List Char) : Option (Nat × List Char) :=
  let digits := (s.takeWhile Char.isDigit).take maxDigits
  if digits.isEmpty then none
  else some (digits.foldl (fun a c => a * 10 + (c.toNat - '0'.toNat)) 0, s.drop digits.length)

def i64Max : Nat := 9223372036854775807

def scanNumberAll (s : List Char) : Option (Nat × List Char) :=
  let digits := s.takeWhile Char.isDigit
  if digits.isEmpty then none
  else
    let v := digits.foldl (fun a c => a * 10 + (c.toNat - '0'.toNat)) 0
    if v ≤ i64Max then some (v, s.drop digits.length) else none

def parseNumeric (width : Nat) (s : List Char) : Option (Nat × List Char) :=
  scanNumber width (s.dropWhile isRustWS)

def parseYear (s : List Char) : Option (Int × List Char) :=
  let t := s.dropWhile isRustWS
  if t.head? = some '-' then
    (scanNumberAll t.tail).map (fun p => (-(p.1 : Int), p.2))
  else if t.head? = some '+' then
    (scanNumberAll t.tail).map (fun p => ((p.1 : Int), p.2))
  else
    (scanNumber 4 t).map (fun p => ((p.1 : Int), p.2))

def parseAmPm (s : List Char) : Option (Bool × List Char) :=
  match s with
  | c1 :: c2 :: rest =>
    if c1.toNat ||| 32 = 'a'.toNat ∧ c2.toNat ||| 32 = 'm'.toNat then some (false, rest)
    else if c1.toNat ||| 32 = 'p'.toNat ∧ c2.toNat ||| 32 = 'm'.toNat then some (true, rest)
    else none
  | _ => none

structure NaiveDT where
  year : Int
  month : Nat
  day : Nat
  hour : Nat
  minute : Nat
deriving DecidableEq

def isLeap (y : Int) : Bool := y % 4 = 0 && (y % 100 ≠ 0 || y % 400 = 0)

def daysInMonth (y : Int) (m : Nat) : Nat :=
  if m = 2 then (if isLeap y then 29 else 28)
  else if m = 4 || m = 6 || m = 9 || m = 11 then 30
  else 31

/-- Resolution of the parsed fields into a `NaiveDateTime`
(`Parsed::to_naive_date` and `to_naive_time` in chrono). -/
def resolveParsed (yr : Int) (mo da h12 mi : Nat) (pm : Bool) : Option NaiveDT :=
  if 1 ≤ mo ∧ mo ≤ 12 ∧ 1 ≤ da ∧ da ≤ daysInMonth yr mo ∧
     -262144 ≤ yr ∧ yr ≤ 262143 ∧ 1 ≤ h12 ∧ h12 ≤ 12 ∧ mi ≤ 59 then
    some ⟨yr, mo, da, h12 % 12 + (if pm then 12 else 0), mi⟩
  else none

/-- Model of `NaiveDateTime::parse_from_str(s, "%m/%d/%Y %I:%M %p")`. -/
def parseDateTime (s : List Char) : Option NaiveDT :=
  (parseNumeric 2 s).bind fun pmo =>
  (litP ['/'] pmo.2).bind fun s2 =>
  (parseNumeric 2 s2).bind fun pda =>
  (litP ['/'] pda.2).bind fun s4 =>
  (parseYear s4).bind fun pyr =>
  (parseNumeric 2 (pyr.2.dropWhile isRustWS)).bind fun ph =>
  (litP [':'] ph.2).bind fun s7 =>
  (parseNumeric 2 s7).bind fun pmi =>
  (parseAmPm (pmi.2.dropWhile isRustWS)).bind fun pap =>
  if pap.2 = [] then resolveParsed pyr.1 pmo.1 pda.1 ph.1 pmi.1 pap.1 else none

/-- Days since 1970-01-01 of a proleptic-Gregorian civil date (the standard
era-based civil-from-days inverse used by chrono's `NaiveDate`).  Divisors
are positive, so `Int` division here is floor division. -/
def daysFromCivil (y : Int) (m d : Nat) : Int :=
  let yAdj : Int := if m ≤ 2 then y - 1 else y
  let era : Int := yAdj / 400
  let yoe : Int := yAdj % 400
  let mp : Int := if m ≤ 2 then (m : Int) + 9 else (m : Int) - 3
  let doy : Int := (153 * mp + 2) / 5 + (d : Int) - 1
  let doe : Int := yoe * 365 + yoe / 4 - yoe / 100 + doy
  era * 146097 + doe - 719468

/-- Model of `dt.and_utc().timestamp()` (epoch seconds, may be negative). -/
def naiveTimestamp (dt : NaiveDT) : Int :=
  daysFromCivil dt.year dt.month dt.day * 86400 +
    (dt.hour : Int) * 3600 + (dt.minute : Int) * 60

/-- Model of the Rust `as u64` cast of an `i64`. -/
def u64OfI64 (v : Int) : Nat := (v % (2 ^ 64)).toNat

/-- Model of the Timestamp Resolver (lines 69-79 of `src/lib.rs`). -/
def resolve_timestamp (date_str time_str : List Char) (now : Nat) : Nat :=
  match parseDateTime (date_str ++ ' ' :: time_str) with
  | some dt => u64OfI64 (naiveTimestamp dt)
  | none => now

/-! Canonical renderings of "%m/%d/%Y %I:%M %p" values, used to quantify over
well-formed date/time strings. -/

def digitChar (k : Nat) : Char :=
  match k with
  | 0 => '0'
  | 1 => '1'
  | 2 => '2'
  | 3 => '3'
  | 4 => '4'
  | 5 => '5'
  | 6 => '6'
  | 7 => '7'
  | 8 => '8'
  | _ => '9'

def pad2 (n : Nat) : List Char := [digitChar (n / 10), digitChar (n % 10)]

def pad4 (n : Nat) : List Char :=
  [digitChar (n / 1000), digitChar (n / 100 % 10), digitChar (n / 10 % 10), digitChar (n % 10)]

def renderDate (m d y : Nat) : List Char := pad2 m ++ '/' :: (pad2 d ++ '/' :: pad4 y)

def renderTime (h mi : Nat) (pm : Bool) : List Char :=
  pad2 h ++ ':' :: (pad2 mi ++ ' ' :: (if pm then ['P', 'M'] else ['A', 'M']))

/-! ## Reference dataset and route resolver

`gtfs_structures::Gtfs` supplies `routes: HashMap<String, Route>` (iterated
through `.values()` in some order, modelled as a list) and
`agencies: Vec<Agency>`.  Only `route.id`, `route.long_name` and `agency.id`
are consumed. -/

structure GtfsRoute where
  id : List Char
  long_name : Option (List Char)
deriving DecidableEq

structure GtfsAgency where
  id : Option (List Char)
deriving DecidableEq

structure Gtfs where
  routes : List GtfsRoute
  agencies : List GtfsAgency
deriving DecidableEq

/-- Model of Rust `str::starts_with` on char lists. -/
def startsWithL : List Char → List Char → Bool
  | [], _ => true
  | _ :: _, [] => false
  | p :: ps, c :: cs => p = c && startsWithL ps cs

/-- Model of Rust `str::contains` (substring search). -/
def containsSub (needle : List Char) : List Char → Bool
  | [] => needle.isEmpty
  | c :: cs => startsWithL needle (c :: cs) || containsSub needle cs

/-- The fixed abbreviation table of `find_route_ids`. -/
def route_map : List (List Char × List Char) :=
  [("NWK-WTC".toList, "Newark - World Trade Center".toList),
   ("HOB-WTC".toList, "Hoboken - World Trade Center".toList),
   ("JSQ-33".toList, "Journal Square - 33rd Street".toList),
   ("HOB-33".toList, "Hoboken - 33rd Street".toList)]

/-- Model of `find_route_ids` (lines 165-186 of `src/lib.rs`): for each table
entry whose abbreviation occurs in the text, push the id of every reference
route whose long name equals the mapped long name. -/
def find_route_ids (text : List Char) (gtfs : Gtfs) : List (List Char) :=
  (route_map.map (fun e =>
    if containsSub e.1 text then
      (gtfs.routes.filter (fun route => route.long_name = some e.2)).map
        (fun route => route.id)
    else [])).flatten

/-- Model of
`gtfs.agencies.first().and_then(|a| a.id.clone()).or_else(|| Some("PATH"))`. -/
def default_agency_id (gtfs : Gtfs) : Option (List Char) :=
  match gtfs.agencies.head? with
  | some a =>
    match a.id with
    | some i => some i
    | none => some "PATH".toList
  | none => some "PATH".toList

/-- The two `EntitySelector` fields the code sets; every other field stays at
its protobuf default (`None`). -/
structure EntitySelector where
  agency_id : Option (List Char)
  route_id : Option (List Char)
deriving DecidableEq

/-- Model of the informed-entity assembly (lines 111-134 of `src/lib.rs`). -/
def informed_entity (clean_alert_text : List Char) (gtfs : Gtfs) : List EntitySelector :=
  let route_ids := find_route_ids clean_alert_text gtfs
  let agency_id := default_agency_id gtfs
  if route_ids.isEmpty then
    [{ agency_id := agency_id, route_id := none }]
  else
    route_ids.map (fun route_id => { agency_id := agency_id, route_id := some route_id })

/-! ## Station blocks and feed assembly

A station block carries the text of the nodes the code selects inside one
`div.station` element: the first two `DATE_SELECTOR` nodes (date, time) and
the first `TEXT_SELECTOR` node — `none` when the selector finds no node.
The stored text is the concatenation of the node's text parts, before the
`.trim()` the code applies. -/

structure StationBlock where
  dateText : Option (List Char)
  timeText : Option (List Char)
  alertText : Option (List Char)
deriving DecidableEq

def blockDateStr (b : StationBlock) : List Char :=
  match b.dateText with
  | some d => rustTrim d
  | none => []

def blockTimeStr (b : StationBlock) : List Char :=
  match b.timeText with
  | some t => rustTrim t
  | none => []

def blockAlertText (b : StationBlock) : List Char :=
  match b.alertText with
  | some t => rustTrim t
  | none => []

/-- `clean_alert_text` of a block (lines 92-95). -/
def blockCleanText (b : StationBlock) : List Char := normalizeText (blockAlertText b)

/-- Entity id `format!("path_alert_{}", index)`. -/
def mk_entity_id (index : Nat) : List Char := "path_alert_".toList ++ (Nat.repr index).toList

/-- The fields of a `FeedEntity` that the code sets (all others stay `None`).
`cause = 1` is `Cause::UnknownCause as i32`, `effect = 8` is
`Effect::UnknownEffect as i32`; the description carries one translation with
language `en`. -/
structure FeedEntity where
  id : List Char
  activePeriodStart : Option Nat
  informedEntity : List EntitySelector
  cause : Int
  effect : Int
  descriptionText : List Char
  descriptionLanguage : List Char
deriving DecidableEq

/-- The entity built from station block `b` at pre-filter index `index`
(lines 101-150 of `src/lib.rs`). -/
def mk_feed_entity (now : Nat) (gtfs : Gtfs) (index : Nat) (b : StationBlock) : FeedEntity :=
  { id := mk_entity_id index
  , activePeriodStart := some (resolve_timestamp (blockDateStr b) (blockTimeStr b) now)
  , informedEntity := informed_entity (blockCleanText b) gtfs
  , cause := 1
  , effect := 8
  , descriptionText := blockCleanText b
  , descriptionLanguage := "en".toList }

/-- Per-block step of the loop: blocks whose cleaned text is empty produce no
entity (`continue`, lines 97-99). -/
def processBlock (now : Nat) (gtfs : Gtfs) (index : Nat) (b : StationBlock) :
    Option FeedEntity :=
  if blockCleanText b = [] then none else some (mk_feed_entity now gtfs index b)

structure FeedHeader where
  gtfs_realtime_version : List Char
  incrementality : Int
  timestamp : Option Nat
  feed_version : Option (List Char)
deriving DecidableEq

structure FeedMessage where
  header : FeedHeader
  entity : List FeedEntity
deriving DecidableEq

/-- The entity list assembled by the loop over `document.select(&STATION_SELECTOR)`
with `enumerate()`. -/
def pipelineEntities (now : Nat) (gtfs : Gtfs) (blocks : List StationBlock) :
    List FeedEntity :=
  blocks.enum.filterMap (fun p => processBlock now gtfs p.1 p.2)

/-- The same list without the empty-text filter, used to state order/index
invariants. -/
def allFeedEntities (now : Nat) (gtfs : Gtfs) (blocks : List StationBlock) :
    List FeedEntity :=
  blocks.enum.map (fun p => mk_feed_entity now gtfs p.1 p.2)

/-- Model of `parse_path_alerts` (lines 49-163 of `src/lib.rs`) from the
station-block level on.  `clock` is the result of
`SystemTime::now().duration_since(UNIX_EPOCH)` (in seconds); its error is
propagated by `?` and is the only fallible operation in the function. -/
def parse_path_alerts (blocks : List StationBlock) (gtfs : Gtfs)
    (clock : Except Unit Nat) : Except Unit FeedMessage :=
  match clock with
  | .error e => .error e
  | .ok current_timestamp =>
    .ok { header :=
            { gtfs_realtime_version := "2.0".toList
            , incrementality := 0
            , timestamp := some current_timestamp
            , feed_version := some "1.0".toList }
        , entity := pipelineEntities current_timestamp gtfs blocks }

theorem resolve_timestamp_of_parse_none {d t : List Char} {now : Nat}
    (h : parseDateTime (d ++ ' ' :: t) = none) :
    resolve_timestamp d t now = now := by
  unfold resolve_timestamp
  rw [h]

/-! ## Claims -/

/-- C4: for every date/time pair whose concatenation does not parse under the
fixed pattern "%m/%d/%Y %I:%M %p", the Timestamp Resolver returns the
pipeline's captured current time; it is a total function, so extraction is
never aborted. -/
theorem claim_C4 (d t : List Char) (now : Nat)
    (h : parseDateTime (d ++ ' ' :: t) = none) :
    resolve_timestamp d t now = now :=
  resolve_timestamp_of_parse_none h

/-- Witness for C4 at the empty pair, a date-only pair and a time-only pair. -/
theorem claim_C4_witness :
    resolve_timestamp [] [] 42 = 42 ∧
    resolve_timestamp "11/25/2025".toList [] 42 = 42 ∧
    resolve_timestamp [] "11:21 PM".toList 42 = 42 :=
  ⟨claim_C4 [] [] 42 (by decide),
   claim_C4 "11/25/2025".toList [] 42 (by decide),
   claim_C4 [] "11:21 PM".toList 42 (by decide)⟩

/-- C5: the Text Normalizer is idempotent — applying the pattern removal and
trim twice yields the same result as applying it once. -/
theorem claim_C5 (s : List Char) :
    normalizeText (normalizeText s) = normalizeText s :=
  normalizeText_idem s

/-- C8: for every input (including zero station blocks), the output header is
version "2.0", full-dataset incrementality (`FULL_DATASET as i32 = 0`), feed
revision "1.0", and its generation timestamp is the single captured clock
value — the same value the Timestamp Resolver falls back to. -/
theorem claim_C8 (blocks : List StationBlock) (gtfs : Gtfs) (now : Nat) :
    parse_path_alerts blocks gtfs (.ok now) =
      .ok ⟨⟨"2.0".toList, 0, some now, some "1.0".toList⟩,
           pipelineEntities now gtfs blocks⟩ ∧
    parse_path_alerts [] gtfs (.ok now) =
      .ok ⟨⟨"2.0".toList, 0, some now, some "1.0".toList⟩, []⟩ ∧
    resolve_timestamp [] [] now = now := by
  refine ⟨rfl, rfl, ?_⟩
  exact resolve_timestamp_of_parse_none (by decide)

/-- C9: `parse_path_alerts` returns an error iff reading the clock fails;
for every block list and reference dataset, a successful clock read yields
`Ok`, and the clock error is propagated unchanged. -/
theorem claim_C9 (blocks : List StationBlock) (gtfs : Gtfs) :
    (∀ clock : Except Unit Nat,
      (parse_path_alerts blocks gtfs clock).isOk = clock.isOk) ∧
    parse_path_alerts blocks gtfs (.error ()) = .error () := by
  constructor
  · intro clock
    cases clock <;> rfl
  · rfl

/-- Concrete text with two apology clauses on separate lines, distinguishing
`replace_all` from first-match-only removal. -/
def c1Input : List Char :=
  "A\nWe regret the inconvenience\nWe regret the inconvenience\nB".toList

/-- C1 counterexample: the code removes *every* match of the apology pattern
(`replace_all`), not only the first one.  On `c1Input` the normalizer also
deletes the second apology line, while the spec's "remove the first match,
preserve later occurrences" would keep it. -/
theorem claim_C1_counterexample :
    normalizeText c1Input = "A\n\n\nB".toList ∧
    normalizeTextFirstOnly c1Input =
      "A\n\nWe regret the inconvenience\nB".toList ∧
    normalizeText c1Input ≠ normalizeTextFirstOnly c1Input := by
  refine ⟨by decide, by decide, by decide⟩

/-- C1 amended: the Text Normalizer removes every non-overlapping match of
the apology pattern (later occurrences as well, not only the first), then
trims; text outside the removed matches is preserved in order.  Formally:
the output contains no match of the pattern at any position, it is a
subsequence of the input, and on match-free text the normalizer only
trims. -/
theorem claim_C1 (s : List Char) :
    suffixHasMatch (normalizeText s) = false ∧
    (normalizeText s).Sublist s ∧
    (suffixHasMatch s = false → normalizeText s = rustTrim s) := by
  refine ⟨normalizeText_noMatch s, normalizeText_sublist s, fun h => ?_⟩
  unfold normalizeText
  rw [replaceAll_of_noMatch h]

/-- Witness for C1 (the third conjunct has a hypothesis): on the already
clean text `Trains on time.` the normalizer only trims. -/
theorem claim_C1_witness :
    suffixHasMatch (normalizeText " Trains on time. ".toList) = false ∧
    (normalizeText " Trains on time. ".toList).Sublist " Trains on time. ".toList ∧
    (suffixHasMatch " Trains on time. ".toList = false →
      normalizeText " Trains on time. ".toList = rustTrim " Trains on time. ".toList) :=
  claim_C1 " Trains on time. ".toList

def kNewarkWtc : List Char := "Newark - World Trade Center".toList

/-- Unfolding of `find_route_ids` over the four-entry table. -/
theorem find_route_ids_eq (text : List Char) (gtfs : Gtfs) :
    find_route_ids text gtfs =
      (if containsSub "NWK-WTC".toList text then
        (gtfs.routes.filter (fun r : GtfsRoute => r.long_name = some kNewarkWtc)).map
          (fun r : GtfsRoute => r.id) else []) ++
      ((if containsSub "HOB-WTC".toList text then
        (gtfs.routes.filter (fun r : GtfsRoute =>
          r.long_name = some "Hoboken - World Trade Center".toList)).map
          (fun r : GtfsRoute => r.id) else []) ++
      ((if containsSub "JSQ-33".toList text then
        (gtfs.routes.filter (fun r : GtfsRoute =>
          r.long_name = some "Journal Square - 33rd Street".toList)).map
          (fun r : GtfsRoute => r.id) else []) ++
      ((if containsSub "HOB-33".toList text then
        (gtfs.routes.filter (fun r : GtfsRoute =>
          r.long_name = some "Hoboken - 33rd Street".toList)).map
          (fun r : GtfsRoute => r.id) else []) ++ []))) := rfl

/-- C2: if the text contains "NWK-WTC", the resolved route ids start with the
id of every reference route whose long name is exactly
"Newark - World Trade Center", in order and with duplicates; if the text
contains none of the four abbreviations, the informed-entity list is exactly
one agency-only selector. -/
theorem claim_C2 (text : List Char) (gtfs : Gtfs) :
    (containsSub "NWK-WTC".toList text = true →
      ((gtfs.routes.filter (fun r : GtfsRoute => r.long_name = some kNewarkWtc)).map
          (fun r : GtfsRoute => r.id)) <+: find_route_ids text gtfs ∧
      ∀ route ∈ gtfs.routes, route.long_name = some kNewarkWtc →
        route.id ∈ find_route_ids text gtfs) ∧
    ((containsSub "NWK-WTC".toList text = false ∧
      containsSub "HOB-WTC".toList text = false ∧
      containsSub "JSQ-33".toList text = false ∧
      containsSub "HOB-33".toList text = false) →
      informed_entity text gtfs =
        [{ agency_id := default_agency_id gtfs, route_id := none }]) := by
  constructor
  · intro h
    have hpre : ((gtfs.routes.filter (fun r : GtfsRoute =>
        r.long_name = some kNewarkWtc)).map (fun r : GtfsRoute => r.id)) <+:
        find_route_ids text gtfs := by
      rw [find_route_ids_eq, if_pos h]
      exact ⟨_, rfl⟩
    refine ⟨hpre, fun route hr hln => ?_⟩
    apply hpre.sublist.subset
    exact List.mem_map_of_mem _ (List.mem_filter.mpr ⟨hr, by simp [hln]⟩)
  · intro ⟨h1, h2, h3, h4⟩
    have hempty : find_route_ids text gtfs = [] := by
      rw [find_route_ids_eq, if_neg (by simpa using h1), if_neg (by simpa using h2),
        if_neg (by simpa using h3), if_neg (by simpa using h4)]
      rfl
    unfold informed_entity
    rw [hempty]
    rfl

def c2Gtfs : Gtfs :=
  ⟨[⟨"R1".toList, some kNewarkWtc⟩,
    ⟨"R9".toList, some "Hoboken - 33rd Street".toList⟩,
    ⟨"R2".toList, some kNewarkWtc⟩], []⟩

/-- Witness for C2: a dataset with two distinct routes sharing the long name
"Newark - World Trade Center" — both ids are resolved for a "NWK-WTC" text
(duplicates kept) — and an agency-only selector for an abbreviation-free
text. -/
theorem claim_C2_witness :
    (["R1".toList, "R2".toList] : List (List Char)) <+:
        find_route_ids "Delays on NWK-WTC line".toList c2Gtfs ∧
    "R2".toList ∈ find_route_ids "Delays on NWK-WTC line".toList c2Gtfs ∧
    informed_entity "All trains on time".toList c2Gtfs =
      [{ agency_id := some "PATH".toList, route_id := none }] := by
  refine ⟨?_, ?_, ?_⟩
  · have h := ((claim_C2 "Delays on NWK-WTC line".toList c2Gtfs).1 (by decide)).1
    exact (by decide :
      (c2Gtfs.routes.filter (fun r : GtfsRoute => r.long_name = some kNewarkWtc)).map
        (fun r : GtfsRoute => r.id) = ["R1".toList, "R2".toList]) ▸ h
  · exact ((claim_C2 "Delays on NWK-WTC line".toList c2Gtfs).1 (by decide)).2
      ⟨"R2".toList, some kNewarkWtc⟩ (by decide) (by decide)
  · have h := (claim_C2 "All trains on time".toList c2Gtfs).2
      ⟨by decide, by decide, by decide, by decide⟩
    exact h.trans (by decide)

/-- Provenance of pipeline entities: every emitted entity is the entity built
from some block whose cleaned text is nonempty. -/
theorem mem_pipelineEntities {now : Nat} {gtfs : Gtfs} {blocks : List StationBlock}
    {e : FeedEntity} (he : e ∈ pipelineEntities now gtfs blocks) :
    ∃ i, ∃ hi : i < blocks.length,
      e = mk_feed_entity now gtfs i (blocks.get ⟨i, hi⟩) ∧
      blockCleanText (blocks.get ⟨i, hi⟩) ≠ [] := by
  unfold pipelineEntities at he
  rw [List.mem_filterMap] at he
  obtain ⟨⟨i, b⟩, hmem, hpb⟩ := he
  have hget : blocks[i]? = some b := by
    simpa using List.mem_enum_iff_getElem?.mp hmem
  obtain ⟨hi, hval⟩ := List.getElem?_eq_some.mp hget
  have hgeti : blocks.get ⟨i, hi⟩ = b := by
    rw [List.get_eq_getElem]
    exact hval
  unfold processBlock at hpb
  by_cases hc : blockCleanText b = []
  · rw [if_pos hc] at hpb
    exact absurd hpb (by simp)
  · rw [if_neg hc] at hpb
    refine ⟨i, hi, ?_, ?_⟩
    · rw [hgeti]
      exact (Option.some.injEq _ _ ▸ hpb).symm
    · rw [hgeti]
      exact hc

/-- C6: no feed entity is emitted for a station block whose normalized alert
text is empty — every emitted entity originates from a block with nonempty
cleaned text, and the exclusion is silent (the result is still `Ok`). -/
theorem claim_C6 (blocks : List StationBlock) (gtfs : Gtfs) (now : Nat) :
    ∃ msg, parse_path_alerts blocks gtfs (.ok now) = .ok msg ∧
      ∀ e ∈ msg.entity, ∃ i, ∃ hi : i < blocks.length,
        e = mk_feed_entity now gtfs i (blocks.get ⟨i, hi⟩) ∧
        blockCleanText (blocks.get ⟨i, hi⟩) ≠ [] :=
  ⟨_, rfl, fun _ he => mem_pipelineEntities he⟩

def c6BlockEmpty : StationBlock := ⟨none, none, some "We regret the inconvenience.".toList⟩

def c6BlockGood : StationBlock :=
  ⟨some "11/25/2025".toList, some "11:21 PM".toList, some "Service is delayed.".toList⟩

/-- Witness for C6: a document whose first block is boilerplate-only yields a
single entity, the one of the second block (id index 1). -/
theorem claim_C6_witness :
    ∃ msg, parse_path_alerts [c6BlockEmpty, c6BlockGood] c2Gtfs (.ok 7) = .ok msg ∧
      ∀ e ∈ msg.entity, ∃ i, ∃ hi : i < ([c6BlockEmpty, c6BlockGood] : List StationBlock).length,
        e = mk_feed_entity 7 c2Gtfs i (([c6BlockEmpty, c6BlockGood] : List StationBlock).get ⟨i, hi⟩) ∧
        blockCleanText (([c6BlockEmpty, c6BlockGood] : List StationBlock).get ⟨i, hi⟩) ≠ [] :=
  claim_C6 [c6BlockEmpty, c6BlockGood] c2Gtfs 7

theorem filterMap_guard_sublist {α β : Type} (l : List α) (f : α → β) (p : α → Bool) :
    (l.filterMap (fun a => if p a then none else some (f a))).Sublist (l.map f) := by
  induction l with
  | nil => exact List.Sublist.refl _
  | cons a l ih =>
    rw [List.filterMap_cons, List.map_cons]
    by_cases hp : p a
    · rw [if_pos hp]
      exact ih.cons _
    · rw [if_neg hp]
      exact ih.cons₂ _

/-- C7: the output entity sequence is a subsequence of the entities built
from the station blocks in document order; its length never exceeds the
block count, and the pre-filter entity ids are exactly
`path_alert_<index>` for the zero-based block indices (no renumbering). -/
theorem claim_C7 (blocks : List StationBlock) (gtfs : Gtfs) (now : Nat) :
    ∃ msg, parse_path_alerts blocks gtfs (.ok now) = .ok msg ∧
      msg.entity.Sublist (allFeedEntities now gtfs blocks) ∧
      msg.entity.length ≤ blocks.length ∧
      (allFeedEntities now gtfs blocks).map (fun e : FeedEntity => e.id) =
        (List.range blocks.length).map mk_entity_id := by
  have hsub : (pipelineEntities now gtfs blocks).Sublist (allFeedEntities now gtfs blocks) := by
    unfold pipelineEntities allFeedEntities
    have heq : (blocks.enum.filterMap fun q => processBlock now gtfs q.1 q.2) =
        blocks.enum.filterMap (fun q =>
          if (fun q : Nat × StationBlock => decide (blockCleanText q.2 = [])) q then none
          else some ((fun q : Nat × StationBlock => mk_feed_entity now gtfs q.1 q.2) q)) := by
      apply List.filterMap_congr
      intro q _
      by_cases hq : blockCleanText q.2 = [] <;> simp [processBlock, hq]
    rw [heq]
    exact filterMap_guard_sublist _ _ _
  have hids : (allFeedEntities now gtfs blocks).map (fun e : FeedEntity => e.id) =
      (List.range blocks.length).map mk_entity_id := by
    unfold allFeedEntities
    rw [List.map_map]
    have : ((fun e : FeedEntity => e.id) ∘ fun q : Nat × StationBlock =>
        mk_feed_entity now gtfs q.1 q.2) = fun q : Nat × StationBlock => mk_entity_id q.1 :=
      rfl
    rw [this]
    have h2 : (fun q : Nat × StationBlock => mk_entity_id q.1) =
        (mk_entity_id ∘ Prod.fst) := rfl
    rw [h2, ← List.map_map, List.enum_map_fst]
  refine ⟨_, rfl, hsub, ?_, hids⟩
  calc (pipelineEntities now gtfs blocks).length
      ≤ (allFeedEntities now gtfs blocks).length := hsub.length_le
    _ = blocks.length := by unfold allFeedEntities; simp

/-- C10: every informed-entity selector of every emitted entity carries the
default agency identifier; that identifier is the literal "PATH" when the
agency list is empty and also when the first agency entry has no id. -/
theorem claim_C10 (blocks : List StationBlock) (gtfs : Gtfs) (now : Nat) (text : List Char) :
    (∀ e ∈ pipelineEntities now gtfs blocks, ∀ sel ∈ e.informedEntity,
      sel.agency_id = default_agency_id gtfs) ∧
    (∀ sel ∈ informed_entity text gtfs, sel.agency_id = default_agency_id gtfs) ∧
    (gtfs.agencies = [] → default_agency_id gtfs = some "PATH".toList) ∧
    (∀ rest, gtfs.agencies = ⟨none⟩ :: rest → default_agency_id gtfs = some "PATH".toList) := by
  have hsel : ∀ t : List Char, ∀ sel ∈ informed_entity t gtfs,
      sel.agency_id = default_agency_id gtfs := by
    intro t sel hsel
    unfold informed_entity at hsel
    by_cases hr : (find_route_ids t gtfs).isEmpty
    · rw [if_pos hr] at hsel
      simp at hsel
      rw [hsel]
    · rw [if_neg hr] at hsel
      rw [List.mem_map] at hsel
      obtain ⟨rid, _, hrid⟩ := hsel
      rw [← hrid]
  refine ⟨?_, hsel text, ?_, ?_⟩
  · intro e he sel hs
    obtain ⟨i, hi, hei, _⟩ := mem_pipelineEntities he
    subst hei
    exact hsel _ sel hs
  · intro h
    unfold default_agency_id
    rw [h]
    rfl
  · intro rest h
    unfold default_agency_id
    rw [h]
    rfl

def c10Gtfs : Gtfs := ⟨[⟨"R1".toList, some kNewarkWtc⟩], [⟨none⟩]⟩

/-- Witness for C10: with a single agency entry carrying no id, the fallback
"PATH" is used, and the selector of an emitted entity carries it. -/
theorem claim_C10_witness :
    (∀ e ∈ pipelineEntities 7 c10Gtfs [c6BlockGood], ∀ sel ∈ e.informedEntity,
      sel.agency_id = default_agency_id c10Gtfs) ∧
    default_agency_id c10Gtfs = some "PATH".toList :=
  ⟨(claim_C10 [c6BlockGood] c10Gtfs 7 []).1,
   (claim_C10 [c6BlockGood] c10Gtfs 7 []).2.2.2 [] rfl⟩

theorem digitChar_isDigit {k : Nat} (hk : k ≤ 9) : (digitChar k).isDigit = true := by
  interval_cases k <;> decide

theorem digitChar_not_ws {k : Nat} (hk : k ≤ 9) : isRustWS (digitChar k) = false := by
  interval_cases k <;> decide

theorem digitChar_val {k : Nat} (hk : k ≤ 9) : (digitChar k).toNat - '0'.toNat = k := by
  interval_cases k <;> decide

theorem digitChar_ne_sign {k : Nat} (hk : k ≤ 9) :
    digitChar k ≠ '-' ∧ digitChar k ≠ '+' := by
  interval_cases k <;> exact ⟨by decide, by decide⟩

theorem scanNumber_two_digits {a b : Nat} (ha : a ≤ 9) (hb : b ≤ 9) (rest : List Char) :
    scanNumber 2 (digitChar a :: digitChar b :: rest) = some (10 * a + b, rest) := by
  unfold scanNumber
  simp only [List.takeWhile_cons, digitChar_isDigit ha, digitChar_isDigit hb, if_true,
    List.take_succ_cons, List.take_zero, List.isEmpty_cons, List.foldl_cons, List.foldl_nil,
    List.length_cons, List.length_nil, List.drop_succ_cons, List.drop_zero, Bool.false_eq_true,
    if_false, digitChar_val ha, digitChar_val hb]
  have : (0 * 10 + a) * 10 + b = 10 * a + b := by ring
  rw [this]

theorem scanNumber_four_digits {a b c d : Nat} (ha : a ≤ 9) (hb : b ≤ 9) (hc : c ≤ 9)
    (hd : d ≤ 9) (rest : List Char) :
    scanNumber 4 (digitChar a :: digitChar b :: digitChar c :: digitChar d :: rest) =
      some (1000 * a + 100 * b + 10 * c + d, rest) := by
  unfold scanNumber
  simp only [List.takeWhile_cons, digitChar_isDigit ha, digitChar_isDigit hb,
    digitChar_isDigit hc, digitChar_isDigit hd, if_true,
    List.take_succ_cons, List.take_zero, List.isEmpty_cons, List.foldl_cons, List.foldl_nil,
    List.length_cons, List.length_nil, List.drop_succ_cons, List.drop_zero, Bool.false_eq_true,
    if_false, digitChar_val ha, digitChar_val hb, digitChar_val hc, digitChar_val hd]
  have : (((0 * 10 + a) * 10 + b) * 10 + c) * 10 + d = 1000 * a + 100 * b + 10 * c + d := by
    ring
  rw [this]

theorem dropWhile_ws_digit {k : Nat} (hk : k ≤ 9) (l : List Char) :
    (digitChar k :: l).dropWhile isRustWS = digitChar k :: l := by
  rw [List.dropWhile_cons, digitChar_not_ws hk]
  simp

theorem parseNumeric_pad2 {x : Nat} (hx : x ≤ 99) (rest : List Char) :
    parseNumeric 2 (pad2 x ++ rest) = some (x, rest) := by
  have h1 : x / 10 ≤ 9 := by omega
  have h2 : x % 10 ≤ 9 := by omega
  have e : pad2 x ++ rest = digitChar (x / 10) :: digitChar (x % 10) :: rest := by
    simp [pad2]
  unfold parseNumeric
  rw [e, dropWhile_ws_digit h1, scanNumber_two_digits h1 h2]
  have : 10 * (x / 10) + x % 10 = x := by omega
  rw [this]

theorem parseYear_pad4 {y : Nat} (hy : y ≤ 9999) (rest : List Char) :
    parseYear (pad4 y ++ rest) = some ((y : Int), rest) := by
  have h1 : y / 1000 ≤ 9 := by omega
  have h2 : y / 100 % 10 ≤ 9 := by omega
  have h3 : y / 10 % 10 ≤ 9 := by omega
  have h4 : y % 10 ≤ 9 := by omega
  have e : pad4 y ++ rest = digitChar (y / 1000) :: digitChar (y / 100 % 10) ::
      digitChar (y / 10 % 10) :: digitChar (y % 10) :: rest := by
    simp [pad4]
  unfold parseYear
  rw [e, dropWhile_ws_digit h1]
  rw [if_neg (by simp [(digitChar_ne_sign h1).1]), if_neg (by simp [(digitChar_ne_sign h1).2])]
  rw [scanNumber_four_digits h1 h2 h3 h4]
  have : 1000 * (y / 1000) + 100 * (y / 100 % 10) + 10 * (y / 10 % 10) + y % 10 = y := by
    omega
  rw [this, Option.map_some']

theorem litP_single (c : Char) (l : List Char) : litP [c] (c :: l) = some l := by
  simp [litP]

theorem dropWhile_ws_pad2 {x : Nat} (hx : x ≤ 99) (l : List Char) :
    (pad2 x ++ l).dropWhile isRustWS = pad2 x ++ l := by
  have h1 : x / 10 ≤ 9 := by omega
  have e : pad2 x ++ l = digitChar (x / 10) :: (digitChar (x % 10) :: l) := by simp [pad2]
  rw [e, dropWhile_ws_digit h1]

theorem dropWhile_ws_space (l : List Char) :
    (' ' :: l).dropWhile isRustWS = l.dropWhile isRustWS := by
  rw [List.dropWhile_cons, if_pos (by decide)]

/-- Parsing a canonical "%m/%d/%Y %I:%M %p" rendering recovers its fields. -/
theorem parseDateTime_render (m d y h mi : Nat) (pm : Bool)
    (hm99 : m ≤ 99) (hd99 : d ≤ 99) (hy : y ≤ 9999) (hh99 : h ≤ 99) (hmi99 : mi ≤ 99)
    (hvalid : 1 ≤ m ∧ m ≤ 12 ∧ 1 ≤ d ∧ d ≤ daysInMonth (y : Int) m ∧
      1 ≤ h ∧ h ≤ 12 ∧ mi ≤ 59) :
    parseDateTime (renderDate m d y ++ ' ' :: renderTime h mi pm) =
      some ⟨(y : Int), m, d, h % 12 + (if pm then 12 else 0), mi⟩ := by
  have e : renderDate m d y ++ ' ' :: renderTime h mi pm =
      pad2 m ++ '/' :: (pad2 d ++ '/' :: (pad4 y ++ ' ' ::
        (pad2 h ++ ':' :: (pad2 mi ++ ' ' :: (if pm then ['P', 'M'] else ['A', 'M']))))) := by
    simp [renderDate, renderTime, List.append_assoc]
  unfold parseDateTime
  rw [e, parseNumeric_pad2 hm99, Option.some_bind, litP_single, Option.some_bind,
    parseNumeric_pad2 hd99, Option.some_bind, litP_single, Option.some_bind,
    parseYear_pad4 hy, Option.some_bind]
  rw [show ((y : Int), ' ' :: (pad2 h ++ ':' :: (pad2 mi ++ ' ' ::
      (if pm then ['P', 'M'] else ['A', 'M'])))).2 = ' ' :: (pad2 h ++ ':' :: (pad2 mi ++ ' ' ::
      (if pm then ['P', 'M'] else ['A', 'M']))) from rfl]
  rw [dropWhile_ws_space]
  unfold parseNumeric
  rw [dropWhile_ws_pad2 hh99, dropWhile_ws_pad2 hh99]
  have hsc : scanNumber 2 (pad2 h ++ ':' :: (pad2 mi ++ ' ' ::
      (if pm then ['P', 'M'] else ['A', 'M']))) = some (h, ':' :: (pad2 mi ++ ' ' ::
      (if pm then ['P', 'M'] else ['A', 'M']))) := by
    have h1 : h / 10 ≤ 9 := by omega
    have h2 : h % 10 ≤ 9 := by omega
    have e2 : pad2 h ++ ':' :: (pad2 mi ++ ' ' :: (if pm then ['P', 'M'] else ['A', 'M'])) =
        digitChar (h / 10) :: digitChar (h % 10) :: (':' :: (pad2 mi ++ ' ' ::
          (if pm then ['P', 'M'] else ['A', 'M']))) := by
      simp [pad2]
    rw [e2, scanNumber_two_digits h1 h2]
    have : 10 * (h / 10) + h % 10 = h := by omega
    rw [this]
  rw [hsc, Option.some_bind, litP_single, Option.some_bind]
  have hmi' : parseNumeric 2 (pad2 mi ++ ' ' :: (if pm then ['P', 'M'] else ['A', 'M'])) =
      some (mi, ' ' :: (if pm then ['P', 'M'] else ['A', 'M'])) := parseNumeric_pad2 hmi99 _
  unfold parseNumeric at hmi'
  rw [hmi', Option.some_bind]
  rw [show ((mi, ' ' :: (if pm then ['P', 'M'] else ['A', 'M']))).2 =
    ' ' :: (if pm then ['P', 'M'] else ['A', 'M']) from rfl]
  rw [dropWhile_ws_space]
  have hap : parseAmPm ((if pm then ['P', 'M'] else ['A', 'M']).dropWhile isRustWS) =
      some (pm, []) := by
    cases pm <;> decide
  rw [hap, Option.some_bind]
  rw [if_pos rfl]
  unfold resolveParsed
  rw [if_pos ?_]
  · obtain ⟨h1, h2, h3, h4, h5, h6, h7⟩ := hvalid
    refine ⟨h1, h2, h3, h4, by omega, by omega, h5, h6, h7⟩

theorem daysInMonth_le_31 (y : Int) (m : Nat) : daysInMonth y m ≤ 31 := by
  unfold daysInMonth
  split
  · split <;> omega
  · split <;> omega

theorem naiveTimestamp_lt_two64 {y : Int} {m d h mi : Nat}
    (hy0 : 0 ≤ y) (hy : y ≤ 9999) (hm : m ≤ 12) (hd : d ≤ 31) (hh : h ≤ 23)
    (hmi : mi ≤ 59) :
    naiveTimestamp ⟨y, m, d, h, mi⟩ < 18446744073709551616 := by
  simp only [naiveTimestamp, daysFromCivil]
  set yA := (if m ≤ 2 then y - 1 else y) with hyA
  have hyAle : yA ≤ 9999 := by rw [hyA]; split <;> omega
  have hyAge : (-400 : Int) ≤ yA := by rw [hyA]; split <;> omega
  have hA1 : yA / 400 ≤ 24 := by
    calc yA / 400 ≤ 9999 / 400 := Int.ediv_le_ediv (by norm_num) hyAle
      _ = 24 := by decide
  have hA0 : (-1 : Int) ≤ yA / 400 := by
    calc (-1 : Int) = -400 / 400 := by decide
      _ ≤ yA / 400 := Int.ediv_le_ediv (by norm_num) hyAge
  have hB0 : 0 ≤ yA % 400 := Int.emod_nonneg _ (by norm_num)
  have hB1 : yA % 400 < 400 := Int.emod_lt_of_pos _ (by norm_num)
  set mp := (if m ≤ 2 then (m : Int) + 9 else (m : Int) - 3) with hmp
  have hmp0 : 0 ≤ mp := by rw [hmp]; split <;> omega
  have hmp1 : mp ≤ 11 := by rw [hmp]; split <;> omega
  have hC0 : 0 ≤ (153 * mp + 2) / 5 := Int.ediv_nonneg (by omega) (by norm_num)
  have hC1 : (153 * mp + 2) / 5 ≤ 337 := by
    calc (153 * mp + 2) / 5 ≤ (153 * 11 + 2) / 5 :=
        Int.ediv_le_ediv (by norm_num) (by omega)
      _ = 337 := by decide
  have hD0 : 0 ≤ yA % 400 / 4 := Int.ediv_nonneg hB0 (by norm_num)
  have hD1 : yA % 400 / 4 ≤ 99 := by
    calc yA % 400 / 4 ≤ 399 / 4 := Int.ediv_le_ediv (by norm_num) (by omega)
      _ = 99 := by decide
  have hE0 : 0 ≤ yA % 400 / 100 := Int.ediv_nonneg hB0 (by norm_num)
  have hE1 : yA % 400 / 100 ≤ 3 := by
    calc yA % 400 / 100 ≤ 399 / 100 := Int.ediv_le_ediv (by norm_num) (by omega)
      _ = 3 := by decide
  omega

/-- C3 counterexample: for the valid pre-epoch date-time
`01/01/1900 12:00 AM` (epoch value -2208988800), the resolver does not
return the epoch-seconds value: the `as u64` cast wraps it to
2^64 - 2208988800. -/
theorem claim_C3_counterexample :
    parseDateTime ("01/01/1900".toList ++ ' ' :: "12:00 AM".toList) =
      some ⟨1900, 1, 1, 0, 0⟩ ∧
    naiveTimestamp ⟨1900, 1, 1, 0, 0⟩ = -2208988800 ∧
    resolve_timestamp "01/01/1900".toList "12:00 AM".toList 0 = 18446744071500562816 ∧
    ((18446744071500562816 : Int) ≠ naiveTimestamp ⟨1900, 1, 1, 0, 0⟩) :=
  ⟨by decide, by decide, by decide, by decide⟩

/-- C3 amended: for every canonically rendered valid "%m/%d/%Y %I:%M %p"
date/time pair whose instant is not before the epoch, the Timestamp Resolver
returns exactly its epoch-seconds value interpreted as UTC (for pre-epoch
instants the `as u64` cast wraps the value modulo 2^64 instead). -/
theorem claim_C3 (y m d h mi : Nat) (pm : Bool) (now : Nat)
    (hm : 1 ≤ m ∧ m ≤ 12) (hd : 1 ≤ d ∧ d ≤ daysInMonth (y : Int) m)
    (hy : y ≤ 9999) (hh : 1 ≤ h ∧ h ≤ 12) (hmi : mi ≤ 59)
    (hpos : 0 ≤ naiveTimestamp ⟨(y : Int), m, d, h % 12 + (if pm then 12 else 0), mi⟩) :
    resolve_timestamp (renderDate m d y) (renderTime h mi pm) now =
      (naiveTimestamp ⟨(y : Int), m, d, h % 12 + (if pm then 12 else 0), mi⟩).toNat := by
  have hd99 : d ≤ 99 := by
    have := le_trans hd.2 (daysInMonth_le_31 (y : Int) m)
    omega
  unfold resolve_timestamp
  rw [parseDateTime_render m d y h mi pm (by omega) hd99 hy (by omega) (by omega)
    ⟨hm.1, hm.2, hd.1, hd.2, hh.1, hh.2, hmi⟩]
  show u64OfI64 (naiveTimestamp ⟨(y : Int), m, d, h % 12 + (if pm then 12 else 0), mi⟩) =
    (naiveTimestamp ⟨(y : Int), m, d, h % 12 + (if pm then 12 else 0), mi⟩).toNat
  unfold u64OfI64
  have hub : naiveTimestamp ⟨(y : Int), m, d, h % 12 + (if pm then 12 else 0), mi⟩ <
      18446744073709551616 := by
    apply naiveTimestamp_lt_two64 (by omega) (by omega) hm.2 ?_ ?_ hmi
    · exact le_trans hd.2 (daysInMonth_le_31 _ _)
    · have : h % 12 < 12 := Nat.mod_lt _ (by omega)
      split <;> omega
  rw [show ((2 : Int) ^ 64) = 18446744073709551616 from by norm_num]
  rw [Int.emod_eq_of_lt hpos hub]

/-- Witness for C3 at the spec's scenario `11/25/2025 11:21 PM`:
the resolver returns the epoch value of 2025-11-25T23:21:00Z. -/
theorem claim_C3_witness :
    resolve_timestamp (renderDate 11 25 2025) (renderTime 11 21 true) 0 =
      (naiveTimestamp ⟨((2025 : Nat) : Int), 11, 25,
        11 % 12 + (if true then 12 else 0), 21⟩).toNat ∧
    (naiveTimestamp ⟨((2025 : Nat) : Int), 11, 25,
        11 % 12 + (if true then 12 else 0), 21⟩).toNat = 1764112860 :=
  ⟨claim_C3 2025 11 25 11 21 true 0 (by decide) ⟨by decide, by decide⟩ (by decide)
      (by decide) (by decide) (by decide),
   by decide⟩
